import Mathlib

/-!
# Verification of otterseq's case-control matcher and variant intersector

Shallow embedding of the core algorithms of the `otterseq` repository:

* `src/otterseq/utils.py` — `check_multi_allelic`, the string labelling of
  `read_fam_file` (`sex_str`, `pheno_str`);
* `src/otterseq/snp.py` — `_process_bim_files`, `_find_common_snps`,
  `get_common_snp` (the variant set intersector);
* `src/otterseq/pca.py` — `match_case_controls` (the case-control matcher).

File I/O, logging and the external PLINK invocations are not modelled: a
`.bim` file is represented by the list of strings in its `rsid` column (an
empty file gives `[]`), and the in-memory joined `.eigenvec`/`.fam` table of
`match_case_controls` is represented by its rows together with the
already-computed scipy distance matrix (`cases_pcs_dist` in the source),
whose floating-point entries are embedded as rationals.  Python exceptions
are embedded as `Except` errors; Python `set`s are embedded as `Finset`s or
as duplicate-free lists when insertion order structures the proof.
`MultiAllelicError` is declared in `otterseq/errors.py` (a module holding
only exception class declarations); it is one constructor of `OtterError`
here.
-/

namespace Otterseq

/-- Python exceptions raised by the embedded code paths. -/
inductive OtterError where
  | multiAllelic : String → OtterError
  | fileNotFound : String → OtterError
  | valueError : String → OtterError
deriving DecidableEq, Repr

/-- Equality of embedded call results (used only to evaluate the model on
concrete inputs). -/
instance instDecEqExcept {ε α : Type} [DecidableEq ε] [DecidableEq α] :
    DecidableEq (Except ε α) := fun a b =>
  match a, b with
  | Except.error e, Except.error e' =>
    if h : e = e' then isTrue (by rw [h])
    else isFalse (by intro hc; cases hc; exact h rfl)
  | Except.error _, Except.ok _ => isFalse (by intro hc; cases hc)
  | Except.ok _, Except.error _ => isFalse (by intro hc; cases hc)
  | Except.ok x, Except.ok y =>
    if h : x = y then isTrue (by rw [h])
    else isFalse (by intro hc; cases hc; exact h rfl)

/-- `check_multi_allelic` (utils.py, lines 10-21): raises `MultiAllelicError`
when `len(rs_ids) > len(set(rs_ids))`, i.e. when the list of rsIDs contains a
duplicate.  `List.dedup` plays the role of `set` (the cardinality of
`set(rs_ids)` is the number of distinct elements). -/
def check_multi_allelic (rs_ids : List String) : Except OtterError Unit :=
  if rs_ids.length > rs_ids.dedup.length then
    Except.error (OtterError.multiAllelic "Multi-allelic variants found in file.")
  else Except.ok ()

/-- `sex_str` column of `read_fam_file` (utils.py lines 89-96, duplicated in
pca.py lines 66-74): `when(sex == 2) → "female"`, `when(sex == 1) → "male"`,
`otherwise → "unknown"`. -/
def sex_str (sex : Int) : String :=
  if sex = 2 then "female" else if sex = 1 then "male" else "unknown"

/-- `pheno_str` column of `read_fam_file` (utils.py lines 97-104, duplicated
in pca.py lines 75-82): `when(pheno == 2) → "control"`,
`when(pheno == 1) → "case"`, `otherwise → "unknown"`, exactly as in the
source. -/
def pheno_str (pheno : Int) : String :=
  if pheno = 2 then "control" else if pheno = 1 then "case" else "unknown"

/-- The loop body of `_process_bim_files` (snp.py lines 160-190) over the
already-read file contents: an empty file's `snp_ids` is `[]`, which is
logged and skipped (`continue`); a non-empty file is checked by
`check_multi_allelic` (an error propagates) and its `set(snp_ids)` is
appended.  A Python `set` is embedded as its duplicate-free list of
elements (`List.dedup`); only membership and emptiness of these sets are
ever observed, and the final output is re-sorted, so list order carries no
information. -/
def process_bim_loop : List (List String) → Except OtterError (List (List String))
  | [] => Except.ok []
  | snp_ids :: rest =>
    if snp_ids.isEmpty then
      process_bim_loop rest
    else
      match check_multi_allelic snp_ids with
      | Except.error e => Except.error e
      | Except.ok _ =>
        match process_bim_loop rest with
        | Except.error e => Except.error e
        | Except.ok sets => Except.ok (snp_ids.dedup :: sets)

/-- `_process_bim_files` (snp.py lines 135-190), with the directory listing
abstracted to the list of per-file rsID columns: raises `FileNotFoundError`
when there are no `.bim` files at all, then runs the per-file loop. -/
def process_bim_files (files : List (List String)) :
    Except OtterError (List (List String)) :=
  if files.isEmpty then
    Except.error (OtterError.fileNotFound "No .bim files found in the provided filepath.")
  else process_bim_loop files

/-- The intersection loop of `_find_common_snps` (snp.py lines 205-213):
fold `set.intersection` over the remaining sets, breaking out as soon as the
running intersection is empty.  Intersection of sets-as-lists is `filter`
by membership. -/
def inter_loop (common_snps : List String) : List (List String) → List String
  | [] => common_snps
  | snp_set :: rest =>
    if (common_snps.filter (fun x => x ∈ snp_set)).isEmpty then
      common_snps.filter (fun x => x ∈ snp_set)
    else inter_loop (common_snps.filter (fun x => x ∈ snp_set)) rest

/-- Python's lexicographic (code-point) string order, the order used by
`sorted` on strings: the lexicographic order on the character lists.  It
coincides with Lean's `String` order (`str_le_iff` below); it is spelled on
`String.data` so that it evaluates on concrete inputs. -/
def str_le (a b : String) : Prop := a.data ≤ b.data

instance : DecidableRel str_le := fun a b =>
  inferInstanceAs (Decidable (a.data ≤ b.data))

/-- `str_le` is Lean's own linear order on `String`. -/
theorem str_le_iff (a b : String) : str_le a b ↔ a ≤ b := by
  rw [String.le_iff_toList_le]; exact Iff.rfl

instance : IsTotal String str_le :=
  ⟨fun a b => by rw [str_le_iff, str_le_iff]; exact le_total a b⟩

instance : IsTrans String str_le :=
  ⟨fun a b c hab hbc => by
    rw [str_le_iff] at *; exact le_trans hab hbc⟩

instance : IsAntisymm String str_le :=
  ⟨fun a b hab hba => by
    rw [str_le_iff] at *; exact le_antisymm hab hba⟩

/-- `_find_common_snps` (snp.py lines 192-215): empty input gives `[]`;
otherwise intersect starting from the first set, with early termination, and
return the `sorted` (lexicographic ascending) list. -/
def find_common_snps (snp_sets : List (List String)) : List String :=
  match snp_sets with
  | [] => []
  | s0 :: rest => List.insertionSort str_le (inter_loop s0 rest)

/-- `get_common_snp` (snp.py lines 217-262), with the directory abstracted to
per-file rsID columns and the final file write (lines 255-260) not modelled:
validates the `write`/`outpath` combination, processes the files, and returns
the sorted common list. -/
def get_common_snp (files : List (List String)) (write : Bool)
    (outpath : Option String) : Except OtterError (List String) :=
  if write = true ∧ outpath = none then
    Except.error (OtterError.valueError "Write was set to True but no outpath was provided")
  else
    match process_bim_files files with
    | Except.error e => Except.error e
    | Except.ok snp_sets => Except.ok (find_common_snps snp_sets)

/-- Spec-side comparandum for the intersection (spec §4.2): the plain fold of
intersections over all per-file sets, first set as the seed, with **no**
early termination.  Used to show the short-circuit never changes the
result. -/
def spec_plain_intersection : List (List String) → List String
  | [] => []
  | s0 :: rest => rest.foldl (fun acc s => acc.filter (fun x => x ∈ s)) s0

/-! ## `match_case_controls` (pca.py lines 234-333)

A row of `merged_df` (the `.eigenvec` table left-joined with the
`fid`/`iid`/`pheno` columns of the `.fam` table, pca.py lines 283-292).  The
PC columns themselves only feed scipy's `distance_matrix`; that matrix
(`cases_pcs_dist`) is taken as an input below, with its floating-point
entries embedded as rationals, row `i` for case `i` and column `j` for
control `j`.  A row left without a `.fam` partner has a null `pheno`, which
compares unequal to both 1 and 2, like any code outside `{1, 2}`; it is
embedded as any integer outside `{1, 2}`. -/
structure MergedRow where
  fid : String
  iid : String
  pheno : Int
deriving DecidableEq, Repr

/-- The `fid_iid` composite-key column (pca.py lines 290-292):
`concat_str(["fid", "iid"], separator="-")`. -/
def fid_iid (r : MergedRow) : String := r.fid ++ "-" ++ r.iid

/-- `cases = merged_df.filter(pl.col("pheno") == 2)` (pca.py line 294). -/
def case_rows (rows : List MergedRow) : List MergedRow :=
  rows.filter (fun r => r.pheno = 2)

/-- `controls = merged_df.filter(pl.col("pheno") == 1)` (pca.py line 295). -/
def control_rows (rows : List MergedRow) : List MergedRow :=
  rows.filter (fun r => r.pheno = 1)

/-- The order in which `np.argsort` ranks the column indices of one distance
row: ascending distance, equal distances ranked by ascending index (the
stable tie-break the spec ascribes to the underlying sort; observationally
numpy's argsort on these rows). -/
def argRel (d : List ℚ) (i j : ℕ) : Prop :=
  d.getD i 0 < d.getD j 0 ∨ (d.getD i 0 = d.getD j 0 ∧ i ≤ j)

instance (d : List ℚ) : DecidableRel (argRel d) := fun i j => by
  unfold argRel; infer_instance

instance (d : List ℚ) : IsTotal ℕ (argRel d) :=
  ⟨fun i j => by
    unfold argRel
    rcases lt_trichotomy (d.getD i 0) (d.getD j 0) with h | h | h
    · exact Or.inl (Or.inl h)
    · rcases Nat.le_total i j with hij | hij
      · exact Or.inl (Or.inr ⟨h, hij⟩)
      · exact Or.inr (Or.inr ⟨h.symm, hij⟩)
    · exact Or.inr (Or.inl h)⟩

instance (d : List ℚ) : IsTrans ℕ (argRel d) :=
  ⟨fun i j k hij hjk => by
    unfold argRel at *
    rcases hij with h1 | ⟨h1, h1'⟩ <;> rcases hjk with h2 | ⟨h2, h2'⟩
    · exact Or.inl (h1.trans h2)
    · exact Or.inl (h2 ▸ h1)
    · exact Or.inl (h1 ▸ h2)
    · exact Or.inr ⟨h1.trans h2, h1'.trans h2'⟩⟩

instance (d : List ℚ) : IsAntisymm ℕ (argRel d) :=
  ⟨fun i j hij hji => by
    unfold argRel at *
    rcases hij with h1 | ⟨h1, h1'⟩ <;> rcases hji with h2 | ⟨h2, h2'⟩
    · exact absurd (h1.trans h2) (lt_irrefl _)
    · exact absurd h1 (by rw [h2]; exact lt_irrefl _)
    · exact absurd h2 (by rw [h1]; exact lt_irrefl _)
    · exact Nat.le_antisymm h1' h2'⟩

/-- `np.argsort(case_dist)` on one distance row (pca.py lines 308 and 321):
the column indices `0 .. len-1` reordered so that distances ascend. -/
def argsort (d : List ℚ) : List ℕ :=
  List.insertionSort (argRel d) (List.range d.length)

/-- Python/numpy slicing `l[:n]` for an `int` bound `n`: the first `n`
elements when `n ≥ 0`, all but the last `-n` when `n < 0`. -/
def pySlice {α : Type} (n : Int) (l : List α) : List α :=
  l.take (if 0 ≤ n then n else (l.length : Int) + n).toNat

/-- The per-case index selection of the non-unique branch (pca.py line 321):
`np.argsort(cases_pcs_dist, axis=1)[:, :n_controls]` for one row. -/
def case_take (row : List ℚ) (n_controls : Int) : List ℕ :=
  pySlice n_controls (argsort row)

/-- The non-unique branch (pca.py lines 318-325): flatten the per-case index
selections, gather `controls["fid_iid"]` at those indices, and take the
`set`. -/
def matched_controls_nonunique (dist : List (List ℚ)) (control_keys : List String)
    (n_controls : Int) : Finset String :=
  (((dist.map (fun row => case_take row n_controls)).flatten).map
    (fun idx => control_keys.getD idx "")).toFinset

/-- The inner scan of the unique branch (pca.py lines 307-316) for one case:
walk the distance-sorted column indices; a `fid_iid` not yet in
`matched_controls` is added and bumps the `matched` counter; after each
index the loop breaks once `matched == n_controls`.  The Python `set` is
embedded as its insertion-ordered, duplicate-free list. -/
def case_scan (control_keys : List String) (n_controls : Int) :
    List ℕ → List String → ℕ → List String
  | [], matched_controls, _ => matched_controls
  | idx :: rest, matched_controls, matched =>
    if control_keys.getD idx "" ∈ matched_controls then
      if (matched : Int) = n_controls then matched_controls
      else case_scan control_keys n_controls rest matched_controls matched
    else
      if ((matched + 1 : ℕ) : Int) = n_controls then
        matched_controls ++ [control_keys.getD idx ""]
      else
        case_scan control_keys n_controls rest
          (matched_controls ++ [control_keys.getD idx ""]) (matched + 1)

/-- The unique branch after the first `i` cases (pca.py lines 305-316): the
`matched_controls` set accumulated by scanning cases `0 .. i-1` in row
order. -/
def matched_upto (dist : List (List ℚ)) (control_keys : List String)
    (n_controls : Int) (i : ℕ) : List String :=
  (dist.take i).foldl
    (fun acc row => case_scan control_keys n_controls (argsort row) acc 0) []

/-- The unique branch in full (pca.py lines 305-316): all cases scanned. -/
def matched_controls_unique (dist : List (List ℚ)) (control_keys : List String)
    (n_controls : Int) : List String :=
  matched_upto dist control_keys n_controls dist.length

/-- The keys newly accepted for case `i` in the unique branch: what case
`i`'s scan appended to the accumulated `matched_controls`. -/
def case_selection (dist : List (List ℚ)) (control_keys : List String)
    (n_controls : Int) (i : ℕ) : List String :=
  (matched_upto dist control_keys n_controls (i + 1)).drop
    (matched_upto dist control_keys n_controls i).length

/-- `match_case_controls` (pca.py lines 234-333) from the point where both
files exist and have been read and joined (lines 283-292): the joined table
`rows` and the scipy distance matrix `dist` are the inputs.  The body
branches on `unique_controls`, then filters `merged_df` to rows whose
`fid_iid` is among the matched controls or whose `pheno` is 2 (lines
327-331).  The source raises nothing past its two file-existence checks, so
every run returns `Except.ok`; in particular `n_controls` is never
validated. -/
def match_case_controls (rows : List MergedRow) (dist : List (List ℚ))
    (n_controls : Int) (unique_controls : Bool) :
    Except OtterError (List MergedRow) :=
  let control_keys := (control_rows rows).map fid_iid
  let matched_controls : Finset String :=
    if unique_controls then
      (matched_controls_unique dist control_keys n_controls).toFinset
    else
      matched_controls_nonunique dist control_keys n_controls
  Except.ok (rows.filter (fun r => fid_iid r ∈ matched_controls ∨ r.pheno = 2))

/-- The nearest control of each case: the key of the first entry of that
case's distance-sorted control ranking.  "No two cases share a nearest
control" is `(nearest_keys dist control_keys).Nodup`. -/
def nearest_keys (dist : List (List ℚ)) (control_keys : List String) : List String :=
  dist.map (fun row => control_keys.getD ((argsort row).headD 0) "")

/-! ## Lemmas: identifier validator and variant set intersector -/

theorem dedup_length_lt_of_not_nodup {l : List String} (h : ¬ l.Nodup) :
    l.dedup.length < l.length := by
  have hsub := List.dedup_sublist l
  refine lt_of_le_of_ne hsub.length_le ?_
  intro he
  exact h (List.dedup_eq_self.mp (hsub.eq_of_length he))

theorem check_multi_allelic_ok_iff (l : List String) :
    check_multi_allelic l = Except.ok () ↔ l.Nodup := by
  unfold check_multi_allelic
  constructor
  · intro h
    by_contra hnd
    rw [if_pos (dedup_length_lt_of_not_nodup hnd)] at h
    exact Except.noConfusion h
  · intro h
    have hc : ¬ (l.length > l.dedup.length) := by
      rw [List.dedup_eq_self.mpr h]
      exact lt_irrefl _
    rw [if_neg hc]

theorem check_multi_allelic_error_of_dup {l : List String} (h : ¬ l.Nodup) :
    check_multi_allelic l =
      Except.error (OtterError.multiAllelic "Multi-allelic variants found in file.") := by
  unfold check_multi_allelic
  rw [if_pos (dedup_length_lt_of_not_nodup h)]

theorem process_bim_loop_ok (files : List (List String))
    (hnd : ∀ f ∈ files, f ≠ [] → f.Nodup) :
    process_bim_loop files =
      Except.ok ((files.filter (fun f => !f.isEmpty)).map List.dedup) := by
  induction files with
  | nil => rfl
  | cons f rest ih =>
    have hrest : ∀ g ∈ rest, g ≠ [] → g.Nodup :=
      fun g hg => hnd g (List.mem_cons_of_mem _ hg)
    by_cases hf : f.isEmpty = true
    · simp only [process_bim_loop, hf, if_true, ih hrest, List.filter_cons,
        Bool.not_true, Bool.false_eq_true, if_false]
    · have hfne : f ≠ [] := by simpa [List.isEmpty_iff] using hf
      have hok := (check_multi_allelic_ok_iff f).mpr (hnd f (List.mem_cons_self f rest) hfne)
      simp only [process_bim_loop, hf, if_false, hok, ih hrest, List.filter_cons,
        Bool.not_false, if_true, List.map_cons, Bool.not_eq_true']
      simp [hf]

theorem foldl_inter_nil (sets : List (List String)) :
    sets.foldl (fun acc s => acc.filter (fun x => x ∈ s)) [] = [] := by
  induction sets with
  | nil => rfl
  | cons s rest ih => simpa using ih

theorem inter_loop_eq_foldl (rest : List (List String)) (acc : List String) :
    inter_loop acc rest =
      rest.foldl (fun a s => a.filter (fun x => x ∈ s)) acc := by
  induction rest generalizing acc with
  | nil => rfl
  | cons s rest ih =>
    by_cases h : (acc.filter (fun x => x ∈ s)).isEmpty = true
    · have he : acc.filter (fun x => decide (x ∈ s)) = [] := by
        simpa [List.isEmpty_iff] using h
      simp [inter_loop, h, he, foldl_inter_nil]
    · simp [inter_loop, h, ih]

theorem process_bim_loop_append_empty (pre post : List (List String)) :
    process_bim_loop (pre ++ [] :: post) = process_bim_loop (pre ++ post) := by
  induction pre with
  | nil => rfl
  | cons g pre ih =>
    by_cases hg : g.isEmpty = true
    · simp [List.cons_append, process_bim_loop, hg, List.append_eq, ih]
    · simp [List.cons_append, process_bim_loop, hg, List.append_eq, ih]

theorem process_bim_loop_error_of_dup (pre : List (List String))
    (f : List String) (post : List (List String))
    (hpre : ∀ g ∈ pre, g ≠ [] → g.Nodup) (hf : f ≠ []) (hdup : ¬ f.Nodup) :
    process_bim_loop (pre ++ f :: post) =
      Except.error (OtterError.multiAllelic "Multi-allelic variants found in file.") := by
  induction pre with
  | nil =>
    have hfe : ¬ (f.isEmpty = true) := by simpa [List.isEmpty_iff] using hf
    simp [List.nil_append, process_bim_loop, hfe,
      check_multi_allelic_error_of_dup hdup]
  | cons g pre ih =>
    have hpre' : ∀ g' ∈ pre, g' ≠ [] → g'.Nodup :=
      fun g' hg' => hpre g' (List.mem_cons_of_mem _ hg')
    by_cases hg : g.isEmpty = true
    · simp [List.cons_append, process_bim_loop, hg, List.append_eq, ih hpre']
    · have hgok := (check_multi_allelic_ok_iff g).mpr
        (hpre g (List.mem_cons_self g pre) (by simpa [List.isEmpty_iff] using hg))
      simp [List.cons_append, process_bim_loop, hg, List.append_eq, hgok, ih hpre']

theorem get_common_snp_ok (files : List (List String)) (hne : files ≠ [])
    (hnd : ∀ f ∈ files, f ≠ [] → f.Nodup) :
    get_common_snp files false none =
      Except.ok (find_common_snps ((files.filter (fun f => !f.isEmpty)).map List.dedup)) := by
  unfold get_common_snp process_bim_files
  rw [if_neg (by simp), if_neg (by simpa [List.isEmpty_iff] using hne),
    process_bim_loop_ok files hnd]

/-- C10: a directory with at least one `.bim` file, all of them empty, raises
no error and returns the empty list: every file is skipped, zero identifier
sets remain, and the intersection over zero sets is the empty list. -/
theorem get_common_snp_all_empty (files : List (List String))
    (hne : files ≠ []) (hall : ∀ f ∈ files, f = []) :
    get_common_snp files false none = Except.ok [] := by
  rw [get_common_snp_ok files hne (fun f hf hne' => absurd (hall f hf) hne')]
  have hfilter : files.filter (fun f => !f.isEmpty) = [] := by
    rw [List.filter_eq_nil_iff]
    intro f hf
    simp [hall f hf]
  rw [hfilter]
  rfl

/-- C10 witness: two empty `.bim` files. -/
theorem get_common_snp_all_empty_witness :
    ([[], []] : List (List String)) ≠ [] ∧ (∀ f ∈ ([[], []] : List (List String)), f = []) ∧
      get_common_snp [[], []] false none = Except.ok [] :=
  ⟨by decide, by decide, get_common_snp_all_empty [[], []] (by decide) (by decide)⟩

/-- C6: an empty `.bim` file is skipped entirely by `_process_bim_files`: it
contributes no constraint, so `get_common_snp` over the file list with the
empty file inserted anywhere equals `get_common_snp` over the remaining
files (rather than being forced to the empty result). -/
theorem empty_bim_skipped (pre post : List (List String)) (h : pre ++ post ≠ []) :
    get_common_snp (pre ++ [] :: post) false none =
      get_common_snp (pre ++ post) false none := by
  unfold get_common_snp process_bim_files
  rw [if_neg (by simp), if_neg (by simp), if_neg (by simp [List.isEmpty_iff]),
    if_neg (by simpa [List.isEmpty_iff] using h), process_bim_loop_append_empty]

/-- C6 witness: an empty file between two non-empty ones. -/
theorem empty_bim_skipped_witness :
    ([["rs1"]] ++ [["rs1", "rs2"]] : List (List String)) ≠ [] ∧
      get_common_snp ([["rs1"]] ++ [] :: [["rs1", "rs2"]]) false none =
        get_common_snp ([["rs1"]] ++ [["rs1", "rs2"]]) false none :=
  ⟨by decide, empty_bim_skipped [["rs1"]] [["rs1", "rs2"]] (by decide)⟩

/-- C7: `check_multi_allelic` succeeds iff the identifier sequence has no
duplicate and raises `MultiAllelicError` otherwise; `get_common_snp`
propagates the error unmodified, and the result does not depend on the files
after the offending one (the intersection never proceeds past it). -/
theorem multi_allelic_detection_and_propagation :
    (∀ l : List String,
      (check_multi_allelic l = Except.ok () ↔ l.Nodup) ∧
      (¬ l.Nodup → check_multi_allelic l =
        Except.error (OtterError.multiAllelic "Multi-allelic variants found in file."))) ∧
    (∀ (pre : List (List String)) (f : List String) (post : List (List String)),
      (∀ g ∈ pre, g ≠ [] → g.Nodup) → f ≠ [] → ¬ f.Nodup →
      get_common_snp (pre ++ f :: post) false none =
        Except.error (OtterError.multiAllelic "Multi-allelic variants found in file.")) := by
  constructor
  · intro l
    exact ⟨check_multi_allelic_ok_iff l, fun h => check_multi_allelic_error_of_dup h⟩
  · intro pre f post hpre hf hdup
    unfold get_common_snp process_bim_files
    rw [if_neg (by simp), if_neg (by simp [List.isEmpty_iff]),
      process_bim_loop_error_of_dup pre f post hpre hf hdup]

/-- C7 witness: the duplicate file `["rs1", "rs2", "rs1"]` after a clean file
and before another file. -/
theorem multi_allelic_detection_and_propagation_witness :
    (∀ g ∈ ([["a"]] : List (List String)), g ≠ [] → g.Nodup) ∧
      (["rs1", "rs2", "rs1"] : List String) ≠ [] ∧
      ¬ (["rs1", "rs2", "rs1"] : List String).Nodup ∧
      get_common_snp ([["a"]] ++ ["rs1", "rs2", "rs1"] :: [["x"]]) false none =
        Except.error (OtterError.multiAllelic "Multi-allelic variants found in file.") :=
  ⟨by decide, by decide, by decide,
    multi_allelic_detection_and_propagation.2 [["a"]] ["rs1", "rs2", "rs1"] [["x"]]
      (by decide) (by decide) (by decide)⟩

theorem find_common_snps_eq_spec (sets : List (List String)) :
    find_common_snps sets = List.insertionSort str_le (spec_plain_intersection sets) := by
  cases sets with
  | nil => rfl
  | cons s0 rest =>
    simp only [find_common_snps, spec_plain_intersection, inter_loop_eq_foldl]

theorem mem_foldl_filter (rest : List (List String)) (acc : List String) (x : String) :
    x ∈ rest.foldl (fun a s => a.filter (fun y => y ∈ s)) acc ↔
      x ∈ acc ∧ ∀ s ∈ rest, x ∈ s := by
  induction rest generalizing acc with
  | nil => simp
  | cons s rest ih =>
    rw [List.foldl_cons, ih]
    simp only [List.mem_filter, List.forall_mem_cons, decide_eq_true_eq]
    tauto

theorem nodup_foldl_filter (rest : List (List String)) (acc : List String)
    (h : acc.Nodup) :
    (rest.foldl (fun a s => a.filter (fun y => y ∈ s)) acc).Nodup := by
  induction rest generalizing acc with
  | nil => simpa
  | cons s rest ih => exact ih _ (h.filter _)

theorem nodup_spec_plain_intersection (sets : List (List String))
    (h : ∀ s ∈ sets, s.Nodup) : (spec_plain_intersection sets).Nodup := by
  cases sets with
  | nil => exact List.nodup_nil
  | cons s0 rest => exact nodup_foldl_filter rest s0 (h s0 (List.mem_cons_self _ _))

theorem mem_spec_plain_intersection (sets : List (List String)) (x : String) :
    x ∈ spec_plain_intersection sets ↔ sets ≠ [] ∧ ∀ s ∈ sets, x ∈ s := by
  cases sets with
  | nil => simp [spec_plain_intersection]
  | cons s0 rest =>
    rw [spec_plain_intersection, mem_foldl_filter]
    simp only [ne_eq, List.cons_ne_nil, not_false_eq_true, true_and, List.forall_mem_cons]

/-- The concrete three-file scenario of spec §8. -/
def ex_files : List (List String) :=
  [["rs1", "rs2", "rs3"], ["rs2", "rs3", "rs4"], ["rs3", "rs4", "rs5"]]

/-- C3: `get_common_snp` returns the lexicographically ascending sorted list
of the identifiers common to all non-empty per-file identifier sets; the
early-termination short-circuit never changes the result (the break-free
`spec_plain_intersection` gives the same list); and with a single qualifying
set the result is that set, sorted. -/
theorem get_common_snp_sorted_common (files : List (List String))
    (hne : files ≠ []) (hnd : ∀ f ∈ files, f ≠ [] → f.Nodup) :
    ∃ L, get_common_snp files false none = Except.ok L ∧
      L.Sorted (· ≤ ·) ∧ L.Nodup ∧
      (∀ x, x ∈ L ↔
        (files.filter (fun f => !f.isEmpty) ≠ [] ∧ ∀ f ∈ files, f ≠ [] → x ∈ f)) ∧
      (∀ sets, find_common_snps sets =
        List.insertionSort str_le (spec_plain_intersection sets)) ∧
      (∀ f, files = [f] → f ≠ [] → L = List.insertionSort str_le f) := by
  have hsetnd : ∀ s ∈ (files.filter (fun f => !f.isEmpty)).map List.dedup, s.Nodup := by
    intro s hs
    rcases List.mem_map.mp hs with ⟨f, _, rfl⟩
    exact List.nodup_dedup f
  refine ⟨find_common_snps ((files.filter (fun f => !f.isEmpty)).map List.dedup),
    get_common_snp_ok files hne hnd, ?_, ?_, ?_, find_common_snps_eq_spec, ?_⟩
  · rw [find_common_snps_eq_spec]
    exact (List.sorted_insertionSort str_le _).imp (fun h => (str_le_iff _ _).mp h)
  · rw [find_common_snps_eq_spec]
    exact ((List.perm_insertionSort str_le _).nodup_iff).mpr
      (nodup_spec_plain_intersection _ hsetnd)
  · intro x
    rw [find_common_snps_eq_spec, (List.perm_insertionSort str_le _).mem_iff,
      mem_spec_plain_intersection]
    constructor
    · rintro ⟨h1, h2⟩
      refine ⟨fun hc => h1 (by rw [hc]; rfl), ?_⟩
      intro f hfmem hfne
      have hfp : f ∈ files.filter (fun f => !f.isEmpty) :=
        List.mem_filter.mpr ⟨hfmem, by simp [List.isEmpty_iff, hfne]⟩
      have := h2 f.dedup (List.mem_map.mpr ⟨f, hfp, rfl⟩)
      exact (List.mem_dedup).mp this
    · rintro ⟨h1, h2⟩
      constructor
      · intro hc
        exact h1 (by simpa using hc)
      · intro s hs
        rcases List.mem_map.mp hs with ⟨f, hf, rfl⟩
        rcases List.mem_filter.mp hf with ⟨hfmem, hfp⟩
        exact (List.mem_dedup).mpr (h2 f hfmem (by simpa [List.isEmpty_iff] using hfp))
  · intro f hfiles hfne
    subst hfiles
    have hemp : f.isEmpty = false := by
      simp [List.isEmpty_iff, hfne]
    have hdedup : f.dedup = f :=
      List.dedup_eq_self.mpr (hnd f (List.mem_cons_self _ _) hfne)
    simp [find_common_snps, inter_loop, List.filter_cons, hemp, hdedup]

/-- C3 witness: the three-file scenario of spec §8, common set `["rs3"]`. -/
theorem get_common_snp_sorted_common_witness :
    ex_files ≠ [] ∧ (∀ f ∈ ex_files, f ≠ [] → f.Nodup) ∧
    (∃ L, get_common_snp ex_files false none = Except.ok L ∧
      L.Sorted (· ≤ ·) ∧ L.Nodup ∧
      (∀ x, x ∈ L ↔
        (ex_files.filter (fun f => !f.isEmpty) ≠ [] ∧ ∀ f ∈ ex_files, f ≠ [] → x ∈ f)) ∧
      (∀ sets, find_common_snps sets =
        List.insertionSort str_le (spec_plain_intersection sets)) ∧
      (∀ f, ex_files = [f] → f ≠ [] → L = List.insertionSort str_le f)) :=
  ⟨by decide, by decide, get_common_snp_sorted_common ex_files (by decide) (by decide)⟩

/-! ## The `.fam` phenotype labels (C8) -/

/-- C8 evidence: `read_fam_file` assigns the label `"control"` to phenotype
code 2 and `"case"` to code 1, while `match_case_controls` partitions rows
with `pheno == 2` as the cases and `pheno == 1` as the controls (and its own
docstring example labels a `pheno = 2` row `"case"`).  The string labels are
swapped relative to the numeric partition; the sex labels are as
documented. -/
theorem fam_pheno_labels_swapped :
    pheno_str 2 = "control" ∧ pheno_str 1 = "case" ∧ pheno_str 0 = "unknown" ∧
    pheno_str 3 = "unknown" ∧
    sex_str 1 = "male" ∧ sex_str 2 = "female" ∧ sex_str 0 = "unknown" ∧
    sex_str 3 = "unknown" ∧
    case_rows [⟨"FAM001", "1", 2⟩] = [⟨"FAM001", "1", 2⟩] ∧
    control_rows [⟨"FAM001", "1", 2⟩] = [] ∧
    pheno_str 2 ≠ "case" := by decide

/-! ## `match_case_controls`: validation and case preservation (C5, C2) -/

/-- C5 counterexample: `match_case_controls` called with `n_controls = 0`
(an invalid value per the spec) is not rejected: it completes and returns a
DataFrame (here the single case row) instead of reporting a configuration
error. -/
theorem match_case_controls_accepts_nonpositive_n :
    match_case_controls [⟨"F", "1", 2⟩, ⟨"F", "2", 1⟩] [[0]] 0 false =
      Except.ok [⟨"F", "1", 2⟩] := by decide

/-- C5 amended: `match_case_controls` performs no validation of `n_controls`
at all: every call, whatever the value of `n_controls` (including 0 and
negatives), returns a result rather than an error; in particular
`n_controls = 0` in non-unique mode selects no controls and returns exactly
the case rows. -/
theorem match_case_controls_no_validation :
    (∀ (rows : List MergedRow) (dist : List (List ℚ)) (n : Int) (u : Bool),
      ∃ out, match_case_controls rows dist n u = Except.ok out) ∧
    (∀ (rows : List MergedRow) (dist : List (List ℚ)),
      match_case_controls rows dist 0 false = Except.ok (case_rows rows)) := by
  constructor
  · intro rows dist n u
    exact ⟨_, rfl⟩
  · intro rows dist
    have hm : matched_controls_nonunique dist ((control_rows rows).map fid_iid) 0 = ∅ := by
      ext x
      simp [matched_controls_nonunique, case_take, pySlice, List.mem_flatten]
    simp [match_case_controls, hm, case_rows]

/-- C2: every row of the joined table whose phenotype code is 2 appears in
the DataFrame returned by `match_case_controls`, for any `n_controls` and
either matching mode; the case rows of the output are exactly the case rows
of the input, so their counts agree. -/
theorem match_case_controls_preserves_cases
    (rows : List MergedRow) (dist : List (List ℚ)) (n : Int) (u : Bool)
    (out : List MergedRow)
    (hout : match_case_controls rows dist n u = Except.ok out) :
    (∀ r ∈ rows, r.pheno = 2 → r ∈ out) ∧
    case_rows out = case_rows rows ∧
    (case_rows out).length = (case_rows rows).length := by
  have hout' : out = rows.filter (fun r =>
      fid_iid r ∈ (if u then
          (matched_controls_unique dist ((control_rows rows).map fid_iid) n).toFinset
        else matched_controls_nonunique dist ((control_rows rows).map fid_iid) n)
        ∨ r.pheno = 2) := by
    unfold match_case_controls at hout
    exact (Except.ok.injEq _ _ ▸ hout).symm
  subst hout'
  have hcc : case_rows (rows.filter (fun r =>
      fid_iid r ∈ (if u then
          (matched_controls_unique dist ((control_rows rows).map fid_iid) n).toFinset
        else matched_controls_nonunique dist ((control_rows rows).map fid_iid) n)
        ∨ r.pheno = 2)) = case_rows rows := by
    unfold case_rows
    rw [List.filter_filter]
    apply List.filter_congr
    intro r _
    by_cases h2 : r.pheno = 2 <;> simp [h2]
  refine ⟨?_, hcc, by rw [hcc]⟩
  intro r hr h2
  exact List.mem_filter.mpr ⟨hr, by simp [h2]⟩

/-- C2 witness: one case, one control, `n_controls = 1`, non-unique mode. -/
theorem match_case_controls_preserves_cases_witness :
    match_case_controls [⟨"F", "1", 2⟩, ⟨"F", "2", 1⟩] [[0]] 1 false =
      Except.ok [⟨"F", "1", 2⟩, ⟨"F", "2", 1⟩] ∧
    ((∀ r ∈ ([⟨"F", "1", 2⟩, ⟨"F", "2", 1⟩] : List MergedRow),
        r.pheno = 2 → r ∈ ([⟨"F", "1", 2⟩, ⟨"F", "2", 1⟩] : List MergedRow)) ∧
      case_rows ([⟨"F", "1", 2⟩, ⟨"F", "2", 1⟩] : List MergedRow) =
        case_rows ([⟨"F", "1", 2⟩, ⟨"F", "2", 1⟩] : List MergedRow) ∧
      (case_rows ([⟨"F", "1", 2⟩, ⟨"F", "2", 1⟩] : List MergedRow)).length =
        (case_rows ([⟨"F", "1", 2⟩, ⟨"F", "2", 1⟩] : List MergedRow)).length) :=
  ⟨by decide,
    match_case_controls_preserves_cases [⟨"F", "1", 2⟩, ⟨"F", "2", 1⟩] [[0]] 1 false
      [⟨"F", "1", 2⟩, ⟨"F", "2", 1⟩] (by decide)⟩

/-! ## Lemmas: argsort -/

theorem argsort_perm (d : List ℚ) : (argsort d).Perm (List.range d.length) :=
  List.perm_insertionSort _ _

theorem argsort_length (d : List ℚ) : (argsort d).length = d.length := by
  rw [(argsort_perm d).length_eq, List.length_range]

theorem argsort_nodup (d : List ℚ) : (argsort d).Nodup :=
  ((argsort_perm d).nodup_iff).mpr (List.nodup_range _)

theorem argsort_sorted (d : List ℚ) : (argsort d).Sorted (argRel d) :=
  List.sorted_insertionSort _ _

theorem mem_argsort (d : List ℚ) (i : ℕ) : i ∈ argsort d ↔ i < d.length := by
  rw [(argsort_perm d).mem_iff, List.mem_range]

theorem case_take_eq_take (row : List ℚ) (n : Int) (hn : 0 ≤ n) :
    case_take row n = (argsort row).take n.toNat := by
  unfold case_take pySlice
  rw [if_pos hn]

/-- C4: in non-unique mode the per-case selection
`np.argsort(case_dist)[:n_controls]` picks, for each case row independently,
the `n_controls` column indices of smallest distance, equal distances being
won by the earliest-listed (smallest-index) control; the matched-control set
is the union of these per-case selections mapped to `fid_iid` keys. -/
theorem nonunique_per_case_selection (row : List ℚ) (n : Int) (hn : 0 ≤ n)
    (dist : List (List ℚ)) (control_keys : List String) :
    (case_take row n).length = min n.toNat row.length ∧
    (case_take row n).Nodup ∧
    (∀ i ∈ case_take row n, i < row.length) ∧
    (∀ i ∈ case_take row n, ∀ j, j < row.length → j ∉ case_take row n →
      (row.getD i 0 < row.getD j 0 ∨ (row.getD i 0 = row.getD j 0 ∧ i < j))) ∧
    (∀ k, k ∈ matched_controls_nonunique dist control_keys n ↔
      ∃ r ∈ dist, ∃ i ∈ case_take r n, control_keys.getD i "" = k) := by
  have hslice := case_take_eq_take row n hn
  refine ⟨?_, ?_, ?_, ?_, ?_⟩
  · rw [hslice, List.length_take, argsort_length]
  · rw [hslice]
    exact ((List.take_prefix _ _).sublist).nodup (argsort_nodup row)
  · intro i hi
    rw [hslice] at hi
    exact (mem_argsort row i).mp (List.mem_of_mem_take hi)
  · intro i hi j hjlen hjnot
    have hjmem : j ∈ (argsort row).drop n.toNat := by
      have hj : j ∈ argsort row := (mem_argsort row j).mpr hjlen
      rw [← List.take_append_drop n.toNat (argsort row)] at hj
      rcases List.mem_append.mp hj with h | h
      · exact absurd (hslice ▸ h) hjnot
      · exact h
    have hpair : argRel row i j := by
      have hsorted := argsort_sorted row
      rw [List.Sorted, ← List.take_append_drop n.toNat (argsort row)] at hsorted
      exact (List.pairwise_append.mp hsorted).2.2 i (hslice ▸ hi) j hjmem
    have hne : i ≠ j := fun he => hjnot (he ▸ hi)
    rcases hpair with h | ⟨heq, hle⟩
    · exact Or.inl h
    · exact Or.inr ⟨heq, lt_of_le_of_ne hle hne⟩
  · intro k
    simp only [matched_controls_nonunique, List.mem_toFinset, List.mem_map,
      List.mem_flatten]
    constructor
    · rintro ⟨i, ⟨l, ⟨r, hr, rfl⟩, hil⟩, rfl⟩
      exact ⟨r, hr, i, hil, rfl⟩
    · rintro ⟨r, hr, i, hi, rfl⟩
      exact ⟨i, ⟨case_take r n, ⟨r, hr, rfl⟩, hi⟩, rfl⟩

/-- C4 witness: one row `[3, 1, 1, 0]` with a distance tie between columns 1
and 2, `n_controls = 2`: columns 3 and 1 are selected (the tie at distance 1
is won by the earlier index 1). -/
theorem nonunique_per_case_selection_witness :
    (0 : Int) ≤ 2 ∧
    ((case_take [(3 : ℚ), 1, 1, 0] 2).length = min (2 : Int).toNat [(3 : ℚ), 1, 1, 0].length ∧
    (case_take [(3 : ℚ), 1, 1, 0] 2).Nodup ∧
    (∀ i ∈ case_take [(3 : ℚ), 1, 1, 0] 2, i < [(3 : ℚ), 1, 1, 0].length) ∧
    (∀ i ∈ case_take [(3 : ℚ), 1, 1, 0] 2, ∀ j, j < [(3 : ℚ), 1, 1, 0].length →
      j ∉ case_take [(3 : ℚ), 1, 1, 0] 2 →
      ([(3 : ℚ), 1, 1, 0].getD i 0 < [(3 : ℚ), 1, 1, 0].getD j 0 ∨
        ([(3 : ℚ), 1, 1, 0].getD i 0 = [(3 : ℚ), 1, 1, 0].getD j 0 ∧ i < j))) ∧
    (∀ k, k ∈ matched_controls_nonunique [[(3 : ℚ), 1, 1, 0]] ["a", "b", "c", "d"] 2 ↔
      ∃ r ∈ [[(3 : ℚ), 1, 1, 0]], ∃ i ∈ case_take r 2, ["a", "b", "c", "d"].getD i "" = k)) :=
  ⟨by decide,
    nonunique_per_case_selection [(3 : ℚ), 1, 1, 0] 2 (by decide)
      [[(3 : ℚ), 1, 1, 0]] ["a", "b", "c", "d"]⟩

/-! ## Non-unique distinct-control cardinality (C9) -/

theorem case_take_nodup (row : List ℚ) (n : Int) (hn : 0 ≤ n) :
    (case_take row n).Nodup := by
  rw [case_take_eq_take row n hn]
  exact ((List.take_prefix _ _).sublist).nodup (argsort_nodup row)

theorem mem_case_take_lt (row : List ℚ) (n : Int) (hn : 0 ≤ n) {i : ℕ}
    (hi : i ∈ case_take row n) : i < row.length := by
  rw [case_take_eq_take row n hn] at hi
  exact (mem_argsort row i).mp (List.mem_of_mem_take hi)

theorem case_take_length (row : List ℚ) (n : Int) (hn : 0 ≤ n) :
    (case_take row n).length = min n.toNat row.length := by
  rw [case_take_eq_take row n hn, List.length_take, argsort_length]

theorem case_take_keys_nodup (row : List ℚ) (keys : List String) (n : Int)
    (hn : 0 ≤ n) (hrow : row.length = keys.length) (hkeys : keys.Nodup) :
    ((case_take row n).map (fun i => keys.getD i "")).Nodup := by
  refine List.Nodup.map_on ?_ (case_take_nodup row n hn)
  intro x hx y hy hxy
  have hxl : x < keys.length := hrow ▸ mem_case_take_lt row n hn hx
  have hyl : y < keys.length := hrow ▸ mem_case_take_lt row n hn hy
  rw [List.getD_eq_getElem _ _ hxl, List.getD_eq_getElem _ _ hyl] at hxy
  exact (hkeys.getElem_inj_iff).mp hxy

theorem headD_mem_take {l : List ℕ} (hl : l ≠ []) {k : ℕ} (hk : 1 ≤ k) :
    l.headD 0 ∈ l.take k := by
  cases l with
  | nil => exact absurd rfl hl
  | cons a t =>
    cases k with
    | zero => omega
    | succ k => simp

theorem headD_argsort_mem_case_take (r : List ℚ) (n : Int) (hn : 0 ≤ n)
    (hr : 1 ≤ r.length) (hn1 : 1 ≤ n.toNat) :
    (argsort r).headD 0 ∈ case_take r n := by
  rw [case_take_eq_take r n hn]
  refine headD_mem_take ?_ hn1
  intro hc
  have := argsort_length r
  rw [hc] at this
  simp at this
  omega

/-- C9 (amended): in non-unique mode the number of distinct matched control
keys is at most `n_controls × nCases` and at least `n_controls`, and equality
to `n_controls × nCases` holds **only if** no two cases share a nearest
control (the converse fails, see the counterexample). -/
theorem nonunique_cardinality_bounds (dist : List (List ℚ)) (keys : List String)
    (n : Int) (hkeys : keys.Nodup) (hrows : ∀ row ∈ dist, row.length = keys.length)
    (hd : dist ≠ []) (hn : 1 ≤ n) (hen : n.toNat ≤ keys.length) :
    n.toNat ≤ (matched_controls_nonunique dist keys n).card ∧
    (matched_controls_nonunique dist keys n).card ≤ n.toNat * dist.length ∧
    ((matched_controls_nonunique dist keys n).card = n.toNat * dist.length →
      (nearest_keys dist keys).Nodup) := by
  have hn0 : (0 : Int) ≤ n := le_trans (by norm_num) hn
  have hn1 : 1 ≤ n.toNat := by omega
  set JL := dist.map (fun r => (case_take r n).map (fun i => keys.getD i "")) with hJLdef
  have hJLlen : JL.length = dist.length := by rw [hJLdef, List.length_map]
  have hm : matched_controls_nonunique dist keys n = JL.flatten.toFinset := by
    unfold matched_controls_nonunique
    rw [List.map_flatten, List.map_map]
    rfl
  have hpartlen : ∀ r ∈ dist,
      ((case_take r n).map (fun i => keys.getD i "")).length = n.toNat := by
    intro r hr
    rw [List.length_map, case_take_length r n hn0, hrows r hr]
    exact min_eq_left hen
  have hflatlen : JL.flatten.length = dist.length * n.toNat := by
    rw [List.length_flatten, hJLdef, List.map_map]
    have hconst : dist.map
        (List.length ∘ fun r => (case_take r n).map (fun i => keys.getD i "")) =
        dist.map (fun _ => n.toNat) :=
      List.map_congr_left (fun r hr => hpartlen r hr)
    rw [hconst, List.map_const', List.sum_replicate, smul_eq_mul]
  refine ⟨?_, ?_, ?_⟩
  · rcases List.exists_cons_of_ne_nil hd with ⟨r0, rest, rfl⟩
    have hr0 : r0 ∈ r0 :: rest := List.mem_cons_self _ _
    have hnd0 := case_take_keys_nodup r0 keys n hn0 (hrows r0 hr0) hkeys
    have hsub : ((case_take r0 n).map (fun i => keys.getD i "")).toFinset ⊆
        JL.flatten.toFinset := by
      intro x hx
      rw [List.mem_toFinset] at hx ⊢
      refine List.mem_flatten.mpr ⟨(case_take r0 n).map (fun i => keys.getD i ""), ?_, hx⟩
      rw [hJLdef]
      exact List.mem_map.mpr ⟨r0, hr0, rfl⟩
    have hcard0 : ((case_take r0 n).map (fun i => keys.getD i "")).toFinset.card
        = n.toNat := by
      rw [List.toFinset_card_of_nodup hnd0, hpartlen r0 hr0]
    rw [hm]
    calc n.toNat
        = ((case_take r0 n).map (fun i => keys.getD i "")).toFinset.card := hcard0.symm
      _ ≤ JL.flatten.toFinset.card := Finset.card_le_card hsub
  · rw [hm]
    calc JL.flatten.toFinset.card
        ≤ JL.flatten.length := List.toFinset_card_le _
      _ = dist.length * n.toNat := hflatlen
      _ = n.toNat * dist.length := Nat.mul_comm _ _
  · intro hcard
    have hnodup : JL.flatten.Nodup := by
      rw [hm, List.card_toFinset] at hcard
      have hsub := List.dedup_sublist JL.flatten
      have heq : JL.flatten.dedup.length = JL.flatten.length := by
        rw [hcard, hflatlen, Nat.mul_comm]
      exact List.dedup_eq_self.mp (hsub.eq_of_length heq)
    have hdisj : List.Pairwise List.Disjoint JL := (List.nodup_flatten.mp hnodup).2
    rw [List.pairwise_iff_getElem] at hdisj
    rw [List.Nodup, List.pairwise_iff_getElem]
    intro i j hi hj hij
    have hnklen : (nearest_keys dist keys).length = dist.length := by
      rw [nearest_keys, List.length_map]
    have hi' : i < dist.length := by rw [hnklen] at hi; exact hi
    have hj' : j < dist.length := by rw [hnklen] at hj; exact hj
    have hiJ : i < JL.length := by rw [hJLlen]; exact hi'
    have hjJ : j < JL.length := by rw [hJLlen]; exact hj'
    have hdij := hdisj i j hiJ hjJ hij
    intro heq
    have hmem : ∀ (t : ℕ) (ht : t < dist.length) (htJ : t < JL.length)
        (htn : t < (nearest_keys dist keys).length),
        (nearest_keys dist keys)[t] ∈ JL[t] := by
      intro t ht htJ htn
      have h1 : (nearest_keys dist keys)[t] =
          keys.getD ((argsort dist[t]).headD 0) "" := by
        simp only [nearest_keys, List.getElem_map]
      have h2 : JL[t] = (case_take dist[t] n).map (fun i => keys.getD i "") := by
        simp only [hJLdef, List.getElem_map]
      rw [h1, h2]
      refine List.mem_map.mpr ⟨(argsort dist[t]).headD 0, ?_, rfl⟩
      refine headD_argsort_mem_case_take dist[t] n hn0 ?_ hn1
      rw [hrows dist[t] (List.getElem_mem ht)]
      omega
    have hmi := hmem i hi' hiJ hi
    have hmj := hmem j hj' hjJ hj
    rw [heq] at hmi
    exact hdij hmi hmj

/-- The concrete refutation input for the "exactly when" reading of the
non-unique cardinality sentence: two cases, three controls, `n_controls = 2`;
the distance rows `[0, 1, 2]` and `[2, 1, 0]` give distinct nearest controls
(`"a"` and `"c"`) yet the middle control `"b"` is shared, so only 3 < 4
distinct keys are matched. -/
def ex_dist9 : List (List ℚ) := [[0, 1, 2], [2, 1, 0]]

/-- Control keys of the C9 refutation input. -/
def ex_keys9 : List String := ["a", "b", "c"]

/-- C9 counterexample: equality of the distinct-control count with
`n_controls × nCases` is **not** equivalent to "no two cases share a nearest
control": at `ex_dist9`/`ex_keys9` with `n_controls = 2` the nearest controls
are distinct, yet only 3 of 4 selected keys are distinct. -/
theorem nonunique_equality_iff_refuted :
    ¬ ((matched_controls_nonunique ex_dist9 ex_keys9 2).card =
        (2 : Int).toNat * ex_dist9.length ↔
       (nearest_keys ex_dist9 ex_keys9).Nodup) := by decide

/-- C9 witness: the bounds and the only-if direction at the refutation
input. -/
theorem nonunique_cardinality_bounds_witness :
    ex_keys9.Nodup ∧ (∀ row ∈ ex_dist9, row.length = ex_keys9.length) ∧
    ex_dist9 ≠ [] ∧ (1 : Int) ≤ 2 ∧ (2 : Int).toNat ≤ ex_keys9.length ∧
    ((2 : Int).toNat ≤ (matched_controls_nonunique ex_dist9 ex_keys9 2).card ∧
      (matched_controls_nonunique ex_dist9 ex_keys9 2).card ≤
        (2 : Int).toNat * ex_dist9.length ∧
      ((matched_controls_nonunique ex_dist9 ex_keys9 2).card =
          (2 : Int).toNat * ex_dist9.length →
        (nearest_keys ex_dist9 ex_keys9).Nodup)) :=
  ⟨by decide, by decide, by decide, by decide, by decide,
    nonunique_cardinality_bounds ex_dist9 ex_keys9 2 (by decide) (by decide)
      (by decide) (by decide) (by decide)⟩

/-! ## Unique mode: properties of the greedy scan (C1) -/

theorem case_scan_grows (keys : List String) (n : Int) :
    ∀ (order : List ℕ) (acc : List String) (cnt : ℕ),
      acc <+: case_scan keys n order acc cnt := by
  intro order
  induction order with
  | nil => intro acc cnt; exact List.prefix_rfl
  | cons idx rest ih =>
    intro acc cnt
    by_cases hmem : keys.getD idx "" ∈ acc
    · by_cases hbrk : ((cnt : ℕ) : Int) = n
      · simp only [case_scan, if_pos hmem, if_pos hbrk]
        exact List.prefix_rfl
      · simp only [case_scan, if_pos hmem, if_neg hbrk]
        exact ih acc cnt
    · by_cases hbrk : ((cnt + 1 : ℕ) : Int) = n
      · simp only [case_scan, if_neg hmem, if_pos hbrk]
        exact List.prefix_append _ _
      · simp only [case_scan, if_neg hmem, if_neg hbrk]
        exact (List.prefix_append _ _).trans (ih _ _)

theorem case_scan_nodup (keys : List String) (n : Int) :
    ∀ (order : List ℕ) (acc : List String) (cnt : ℕ),
      acc.Nodup → (case_scan keys n order acc cnt).Nodup := by
  intro order
  induction order with
  | nil => intro acc cnt h; exact h
  | cons idx rest ih =>
    intro acc cnt h
    by_cases hmem : keys.getD idx "" ∈ acc
    · by_cases hbrk : ((cnt : ℕ) : Int) = n
      · simp only [case_scan, if_pos hmem, if_pos hbrk]; exact h
      · simp only [case_scan, if_pos hmem, if_neg hbrk]; exact ih acc cnt h
    · have happ : (acc ++ [keys.getD idx ""]).Nodup := by
        rw [List.nodup_append]
        refine ⟨h, List.nodup_singleton _, ?_⟩
        intro a ha hb
        rw [List.mem_singleton] at hb
        exact hmem (hb ▸ ha)
      by_cases hbrk : ((cnt + 1 : ℕ) : Int) = n
      · simp only [case_scan, if_neg hmem, if_pos hbrk]; exact happ
      · simp only [case_scan, if_neg hmem, if_neg hbrk]; exact ih _ _ happ

theorem case_scan_mem (keys : List String) (n : Int) :
    ∀ (order : List ℕ) (acc : List String) (cnt : ℕ),
      ∀ x ∈ case_scan keys n order acc cnt,
        x ∈ acc ∨ ∃ i ∈ order, x = keys.getD i "" := by
  intro order
  induction order with
  | nil => intro acc cnt x hx; exact Or.inl hx
  | cons idx rest ih =>
    intro acc cnt x hx
    by_cases hmem : keys.getD idx "" ∈ acc
    · by_cases hbrk : ((cnt : ℕ) : Int) = n
      · simp only [case_scan, if_pos hmem, if_pos hbrk] at hx
        exact Or.inl hx
      · simp only [case_scan, if_pos hmem, if_neg hbrk] at hx
        rcases ih acc cnt x hx with h | ⟨i, hi, rfl⟩
        · exact Or.inl h
        · exact Or.inr ⟨i, List.mem_cons_of_mem _ hi, rfl⟩
    · by_cases hbrk : ((cnt + 1 : ℕ) : Int) = n
      · simp only [case_scan, if_neg hmem, if_pos hbrk] at hx
        rcases List.mem_append.mp hx with h | h
        · exact Or.inl h
        · exact Or.inr ⟨idx, List.mem_cons_self _ _, (List.mem_singleton.mp h)⟩
      · simp only [case_scan, if_neg hmem, if_neg hbrk] at hx
        rcases ih _ _ x hx with h | ⟨i, hi, rfl⟩
        · rcases List.mem_append.mp h with h' | h'
          · exact Or.inl h'
          · exact Or.inr ⟨idx, List.mem_cons_self _ _, (List.mem_singleton.mp h')⟩
        · exact Or.inr ⟨i, List.mem_cons_of_mem _ hi, rfl⟩

/-- The greedy scan adds exactly `min available (n - cnt)` new keys, where
`available` counts scan positions whose key is not yet matched.  The key
counting invariant behind the unique-mode cardinality. -/
theorem case_scan_length (keys : List String) (n : Int) :
    ∀ (order : List ℕ) (acc : List String) (cnt : ℕ),
      ((order.map (fun i => keys.getD i "")).Nodup) → cnt < n.toNat →
      (case_scan keys n order acc cnt).length =
        acc.length + min ((order.filter (fun i => keys.getD i "" ∉ acc)).length)
          (n.toNat - cnt) := by
  intro order
  induction order with
  | nil =>
    intro acc cnt _ _
    simp [case_scan]
  | cons idx rest ih =>
    intro acc cnt hnd hcnt
    have hndc : (keys.getD idx "" :: rest.map (fun i => keys.getD i "")).Nodup := by
      simpa using hnd
    have hkey_not : keys.getD idx "" ∉ rest.map (fun i => keys.getD i "") :=
      (List.nodup_cons.mp hndc).1
    have hndrest : (rest.map (fun i => keys.getD i "")).Nodup :=
      (List.nodup_cons.mp hndc).2
    by_cases hmem : keys.getD idx "" ∈ acc
    · have hbrk : ¬ ((cnt : ℕ) : Int) = n := by omega
      simp only [case_scan, if_pos hmem, if_neg hbrk]
      rw [ih acc cnt hndrest hcnt]
      have hfc : List.filter (fun i => decide (keys.getD i "" ∉ acc)) (idx :: rest)
          = rest.filter (fun i => keys.getD i "" ∉ acc) := by
        rw [List.filter_cons]
        rw [decide_eq_false (not_not_intro hmem)]
        simp only [Bool.false_eq_true, if_false]
      rw [hfc]
    · have hfc : (List.filter (fun i => decide (keys.getD i "" ∉ acc)) (idx :: rest)).length
          = (rest.filter (fun i => keys.getD i "" ∉ acc)).length + 1 := by
        rw [List.filter_cons]
        rw [decide_eq_true hmem]
        rw [if_pos rfl, List.length_cons]
      by_cases hbrk : ((cnt + 1 : ℕ) : Int) = n
      · have hcnt1 : cnt + 1 = n.toNat := by omega
        simp only [case_scan, if_neg hmem, if_pos hbrk]
        rw [List.length_append, hfc]
        simp only [List.length_singleton]
        omega
      · have hcnt1 : cnt + 1 < n.toNat := by omega
        simp only [case_scan, if_neg hmem, if_neg hbrk]
        rw [ih (acc ++ [keys.getD idx ""]) (cnt + 1) hndrest hcnt1]
        have havail : rest.filter (fun i => keys.getD i "" ∉ (acc ++ [keys.getD idx ""]))
            = rest.filter (fun i => keys.getD i "" ∉ acc) := by
          apply List.filter_congr
          intro i hi
          have hne : keys.getD i "" ≠ keys.getD idx "" := by
            intro hc
            exact hkey_not (hc ▸ List.mem_map.mpr ⟨i, hi, rfl⟩)
          rw [decide_eq_decide]
          constructor
          · intro h hin
            exact h (List.mem_append.mpr (Or.inl hin))
          · intro h hin
            rcases List.mem_append.mp hin with h' | h'
            · exact h h'
            · exact hne (List.mem_singleton.mp h')
        rw [havail, List.length_append, hfc]
        simp only [List.length_singleton]
        omega

theorem map_getD_range (keys : List String) :
    (List.range keys.length).map (fun i => keys.getD i "") = keys := by
  apply List.ext_getElem
  · rw [List.length_map, List.length_range]
  · intro i h1 h2
    rw [List.getElem_map, List.getElem_range]
    exact List.getD_eq_getElem keys "" h2

theorem filter_not_mem_length (keys acc : List String) (hkeys : keys.Nodup)
    (haccnd : acc.Nodup) (hsub : ∀ x ∈ acc, x ∈ keys) :
    (keys.filter (fun x => x ∉ acc)).length = keys.length - acc.length := by
  have hsplit := List.length_eq_countP_add_countP (fun x => decide (x ∈ acc)) keys
  rw [List.countP_eq_length_filter, List.countP_eq_length_filter] at hsplit
  have hin : (keys.filter (fun x => x ∈ acc)).length = acc.length := by
    rw [← List.toFinset_card_of_nodup (hkeys.filter _),
      ← List.toFinset_card_of_nodup haccnd]
    congr 1
    ext x
    simp only [List.mem_toFinset, List.mem_filter, decide_eq_true_eq]
    exact ⟨fun h => h.2, fun h => ⟨hsub x h, h⟩⟩
  have hout : (keys.filter (fun x => decide ¬(decide (x ∈ acc)) = true)).length
      = (keys.filter (fun x => x ∉ acc)).length := by
    congr 1
    apply List.filter_congr
    intro x _
    simp
  rw [hout, hin] at hsplit
  omega

theorem filter_argsort_avail (keys : List String) (row : List ℚ)
    (hrow : row.length = keys.length) (acc : List String) (haccnd : acc.Nodup)
    (hsub : ∀ x ∈ acc, x ∈ keys) (hkeys : keys.Nodup) :
    ((argsort row).filter (fun i => keys.getD i "" ∉ acc)).length =
      keys.length - acc.length := by
  have h1 : ((argsort row).filter (fun i => keys.getD i "" ∉ acc)).length
      = ((List.range row.length).filter (fun i => keys.getD i "" ∉ acc)).length := by
    rw [← List.countP_eq_length_filter, ← List.countP_eq_length_filter]
    exact (argsort_perm row).countP_eq _
  rw [h1, hrow]
  have h2 : ((List.range keys.length).filter (fun i => keys.getD i "" ∉ acc)).length
      = (keys.filter (fun x => x ∉ acc)).length := by
    have := List.filter_map (p := fun x => decide (x ∉ acc))
      (fun i => keys.getD i "") (List.range keys.length)
    rw [map_getD_range] at this
    rw [this, List.length_map]
    rfl
  rw [h2]
  exact filter_not_mem_length keys acc hkeys haccnd hsub

/-- One full greedy scan over a case's distance-sorted ranking accepts exactly
`n_controls` new keys whenever enough unmatched keys remain. -/
theorem case_scan_argsort_length (keys : List String) (row : List ℚ) (n : Int)
    (hrow : row.length = keys.length) (hkeys : keys.Nodup)
    (acc : List String) (haccnd : acc.Nodup) (hsub : ∀ x ∈ acc, x ∈ keys)
    (hn1 : 1 ≤ n.toNat) (henough : acc.length + n.toNat ≤ keys.length) :
    (case_scan keys n (argsort row) acc 0).length = acc.length + n.toNat := by
  have hndmap : ((argsort row).map (fun i => keys.getD i "")).Nodup := by
    refine List.Nodup.map_on ?_ (argsort_nodup row)
    intro x hx y hy hxy
    have hx' : x < keys.length := hrow ▸ (mem_argsort row x).mp hx
    have hy' : y < keys.length := hrow ▸ (mem_argsort row y).mp hy
    rw [List.getD_eq_getElem _ _ hx', List.getD_eq_getElem _ _ hy'] at hxy
    exact hkeys.getElem_inj_iff.mp hxy
  rw [case_scan_length keys n (argsort row) acc 0 hndmap (by omega)]
  rw [filter_argsort_avail keys row hrow acc haccnd hsub hkeys]
  rw [Nat.sub_zero, min_eq_right (by omega)]

/-! ## Unique mode: the per-case fold (C1) -/

theorem matched_upto_succ (dist : List (List ℚ)) (keys : List String) (n : Int)
    (i : ℕ) (hi : i < dist.length) :
    matched_upto dist keys n (i + 1) =
      case_scan keys n (argsort dist[i]) (matched_upto dist keys n i) 0 := by
  unfold matched_upto
  rw [List.take_succ, List.getElem?_eq_getElem hi, List.foldl_append]
  rfl

theorem matched_upto_stable (dist : List (List ℚ)) (keys : List String) (n : Int)
    (i : ℕ) (hi : dist.length ≤ i) :
    matched_upto dist keys n (i + 1) = matched_upto dist keys n i := by
  unfold matched_upto
  rw [List.take_of_length_le (by omega), List.take_of_length_le (by omega)]

theorem matched_upto_nodup (dist : List (List ℚ)) (keys : List String) (n : Int) :
    ∀ i, (matched_upto dist keys n i).Nodup := by
  intro i
  induction i with
  | zero => exact List.nodup_nil
  | succ i ih =>
    by_cases hi : i < dist.length
    · rw [matched_upto_succ dist keys n i hi]
      exact case_scan_nodup keys n _ _ 0 ih
    · rw [matched_upto_stable dist keys n i (by omega)]
      exact ih

theorem matched_upto_subset (dist : List (List ℚ)) (keys : List String) (n : Int)
    (hrows : ∀ row ∈ dist, row.length = keys.length) :
    ∀ i, ∀ x ∈ matched_upto dist keys n i, x ∈ keys := by
  intro i
  induction i with
  | zero => intro x hx; exact absurd hx (List.not_mem_nil x)
  | succ i ih =>
    by_cases hi : i < dist.length
    · rw [matched_upto_succ dist keys n i hi]
      intro x hx
      rcases case_scan_mem keys n _ _ 0 x hx with h | ⟨j, hj, rfl⟩
      · exact ih x h
      · have hjl : j < keys.length := by
          rw [← hrows dist[i] (List.getElem_mem hi)]
          exact (mem_argsort _ j).mp hj
        rw [List.getD_eq_getElem _ _ hjl]
        exact List.getElem_mem hjl
    · rw [matched_upto_stable dist keys n i (by omega)]
      exact ih

theorem matched_upto_grows (dist : List (List ℚ)) (keys : List String) (n : Int)
    (i : ℕ) : matched_upto dist keys n i <+: matched_upto dist keys n (i + 1) := by
  by_cases hi : i < dist.length
  · rw [matched_upto_succ dist keys n i hi]
    exact case_scan_grows keys n _ _ 0
  · rw [matched_upto_stable dist keys n i (by omega)]

theorem matched_upto_grows_le (dist : List (List ℚ)) (keys : List String) (n : Int)
    {i j : ℕ} (hij : i ≤ j) :
    matched_upto dist keys n i <+: matched_upto dist keys n j := by
  induction hij with
  | refl => exact List.prefix_rfl
  | step h ih => exact ih.trans (matched_upto_grows dist keys n _)

theorem matched_upto_length (dist : List (List ℚ)) (keys : List String) (n : Int)
    (hkeys : keys.Nodup) (hrows : ∀ row ∈ dist, row.length = keys.length)
    (hn1 : 1 ≤ n.toNat) (henough : n.toNat * dist.length ≤ keys.length) :
    ∀ i, i ≤ dist.length → (matched_upto dist keys n i).length = n.toNat * i := by
  intro i
  induction i with
  | zero => intro _; rfl
  | succ i ih =>
    intro hi1
    have hi : i < dist.length := by omega
    rw [matched_upto_succ dist keys n i hi]
    rw [case_scan_argsort_length keys dist[i] n (hrows dist[i] (List.getElem_mem hi))
      hkeys _ (matched_upto_nodup dist keys n i)
      (matched_upto_subset dist keys n hrows i) hn1 ?_]
    · rw [ih (by omega), Nat.mul_succ]
    · rw [ih (by omega)]
      calc n.toNat * i + n.toNat = n.toNat * (i + 1) := (Nat.mul_succ _ _).symm
        _ ≤ n.toNat * dist.length := Nat.mul_le_mul_left _ (by omega)
        _ ≤ keys.length := henough

theorem case_selection_disjoint_lt (dist : List (List ℚ)) (keys : List String)
    (n : Int) {i j : ℕ} (hij : i < j) :
    ∀ k ∈ case_selection dist keys n i, k ∉ case_selection dist keys n j := by
  intro k hki hkj
  have h1 : k ∈ matched_upto dist keys n (i + 1) :=
    List.mem_of_mem_drop hki
  have h2 : k ∈ matched_upto dist keys n j :=
    ((matched_upto_grows_le dist keys n (show i + 1 ≤ j by omega)).sublist.subset) h1
  have hsplit : matched_upto dist keys n (j + 1) =
      matched_upto dist keys n j ++ case_selection dist keys n j := by
    rcases matched_upto_grows dist keys n j with ⟨t, ht⟩
    unfold case_selection
    rw [← ht, List.drop_left]
  have hnd := matched_upto_nodup dist keys n (j + 1)
  rw [hsplit, List.nodup_append] at hnd
  exact hnd.2.2 h2 hkj

/-- C1: in unique mode the greedy scan never selects a control key for more
than one case — the accumulated matched list is duplicate-free and the
per-case selections are pairwise disjoint — and whenever at least
`n_controls × nCases` (distinct-keyed) controls exist, exactly
`n_controls × nCases` distinct keys are selected. -/
theorem unique_mode_no_reuse_and_count (dist : List (List ℚ)) (keys : List String)
    (n : Int) (hkeys : keys.Nodup) (hrows : ∀ row ∈ dist, row.length = keys.length)
    (hn : 1 ≤ n) :
    (matched_controls_unique dist keys n).Nodup ∧
    (∀ i j, i ≠ j →
      ∀ k ∈ case_selection dist keys n i, k ∉ case_selection dist keys n j) ∧
    (n.toNat * dist.length ≤ keys.length →
      (matched_controls_unique dist keys n).length = n.toNat * dist.length) := by
  refine ⟨matched_upto_nodup dist keys n dist.length, ?_, ?_⟩
  · intro i j hij k hki hkj
    rcases Nat.lt_or_ge i j with h | h
    · exact case_selection_disjoint_lt dist keys n h k hki hkj
    · have h' : j < i := by omega
      exact case_selection_disjoint_lt dist keys n h' k hkj hki
  · intro henough
    exact matched_upto_length dist keys n hkeys hrows (by omega) henough
      dist.length le_rfl

/-- C1 witness: two cases, two controls, `n_controls = 1`; both parts of the
invariant instantiated at `[[0, 1], [1, 0]]` with keys `["a", "b"]`. -/
theorem unique_mode_no_reuse_and_count_witness :
    (["a", "b"] : List String).Nodup ∧
    (∀ row ∈ ([[0, 1], [1, 0]] : List (List ℚ)),
      row.length = (["a", "b"] : List String).length) ∧
    (1 : Int) ≤ 1 ∧
    ((matched_controls_unique [[0, 1], [1, 0]] ["a", "b"] 1).Nodup ∧
      (∀ i j, i ≠ j →
        ∀ k ∈ case_selection [[0, 1], [1, 0]] ["a", "b"] 1 i,
          k ∉ case_selection [[0, 1], [1, 0]] ["a", "b"] 1 j) ∧
      ((1 : Int).toNat * ([[0, 1], [1, 0]] : List (List ℚ)).length ≤
          (["a", "b"] : List String).length →
        (matched_controls_unique [[0, 1], [1, 0]] ["a", "b"] 1).length =
          (1 : Int).toNat * ([[0, 1], [1, 0]] : List (List ℚ)).length)) :=
  ⟨by decide, by decide, by decide,
    unique_mode_no_reuse_and_count [[0, 1], [1, 0]] ["a", "b"] 1
      (by decide) (by decide) (by decide)⟩

end Otterseq
